import Mathlib

set_option maxRecDepth 8000

/-!
Verification of the reddit-to-telegram relay bot (bot.py) against its
specification.  The Python source is shallowly embedded: module-level mutable
state becomes explicit state records, the dispatcher loop body becomes a pure
transition function parameterised by the transport's response, and wall-clock
times are nonnegative integers (Nat).  External library functions the source
calls (hashlib.sha256, html.escape / html.unescape, the regex operations) are
modelled by executable Lean definitions of their documented behaviour,
restricted to the ASCII fragment actually exercised by this program.
-/

/- ------------------------------------------------------------------ -/
/- Settings (bot.py lines 45-52)                                       -/
/- ------------------------------------------------------------------ -/

def CHECK_INTERVAL : Nat := 120

def SUB_DELAY : Nat := 2

def HEARTBEAT_INTERVAL : Nat := 1800

def MAX_SEEN : Nat := 3000

def BACKOFF_START : Nat := 5

def BACKOFF_MAX : Nat := 120

/- ------------------------------------------------------------------ -/
/- Dispatcher (bot.py lines 64-68, 93-135)                             -/
/- ------------------------------------------------------------------ -/

/-- The dispatcher's mutable state: the outbound FIFO queue (a deque of
message texts), the current backoff delay in seconds, and the timestamp of
the last successful send.  These embed the module-level variables
queue, backoff and last_send of bot.py. -/
structure DispatchState where
  queue : List String
  backoff : Nat
  lastSend : Nat
deriving DecidableEq

/-- Appending a message at the tail of the outbound queue
(bot.py enqueue, line 93-94: queue.append(msg)). -/
def enqueueMsg (s : DispatchState) (m : String) : DispatchState :=
  { s with queue := s.queue ++ [m] }

/-- Backoff escalation as written on bot.py lines 125 and 135:
min(backoff * 2 if backoff else BACKOFF_START, BACKOFF_MAX). -/
def escalate (backoff : Nat) : Nat :=
  min (if backoff ≠ 0 then backoff * 2 else BACKOFF_START) BACKOFF_MAX

/-- The transport's reaction to one POST: some c is an HTTP status code c,
none is a raised exception (network failure / timeout). -/
def isFail (resp : Option Nat) : Bool :=
  match resp with
  | some c => c == 429
  | none => true

/-- Whether a response consumes the message: any HTTP status other than 429
(bot.py line 124 tests only r.status_code == 429; every other status falls
into the else branch on lines 128-130). -/
def isOk (resp : Option Nat) : Bool :=
  match resp with
  | some c => c != 429
  | none => false

/-- One invocation of send_worker (bot.py lines 96-135).  The sleeps on
lines 102-107 do not change the embedded state and are omitted; now is the
wall-clock time recorded by time.time() on line 130; resp is the transport's
response to the POST of msg[:4000].  Returns the new state together with the
consumed message, if any:
 - empty queue: return immediately (lines 99-100);
 - status 429: re-insert msg at the head, escalate backoff, keep last_send
   (lines 124-127);
 - any other status: message consumed, backoff reset to 0, last_send updated
   (lines 128-130);
 - exception: re-insert msg at the head, escalate backoff (lines 132-135). -/
def send_worker (s : DispatchState) (now : Nat) (resp : Option Nat) :
    DispatchState × Option String :=
  match s.queue with
  | [] => (s, none)
  | msg :: rest =>
    match resp with
    | some c =>
      if c = 429 then
        ({ queue := msg :: rest, backoff := escalate s.backoff,
           lastSend := s.lastSend }, none)
      else
        ({ queue := rest, backoff := 0, lastSend := now }, some msg)
    | none =>
      ({ queue := msg :: rest, backoff := escalate s.backoff,
         lastSend := s.lastSend }, none)

/-- Repeated invocation of send_worker, one invocation per transport
response in rs, collecting the consumed messages in order (the drain loop of
bot.py lines 190-191). -/
def drain (s : DispatchState) (now : Nat) : List (Option Nat) →
    DispatchState × List String
  | [] => (s, [])
  | r :: rs =>
    let step := send_worker s now r
    let rec' := drain step.1 now rs
    (rec'.1, step.2.toList ++ rec'.2)

/-- Repeated invocation of send_worker keeping only the final state. -/
def runWorker (s : DispatchState) (now : Nat) (rs : List (Option Nat)) :
    DispatchState :=
  rs.foldl (fun st r => (send_worker st now r).1) s

/- ------------------------------------------------------------------ -/
/- SHA-256 (model of hashlib.sha256, used by post_id on lines 76-79)   -/
/- ------------------------------------------------------------------ -/

/-- Reduction of a natural number to a 32-bit word. -/
def w32 (n : Nat) : Nat := n % 4294967296

/-- Right rotation of a 32-bit word by n bits. -/
def rotr (n x : Nat) : Nat := x / 2 ^ n + x % 2 ^ n * 2 ^ (32 - n)

/-- Bitwise complement of a 32-bit word. -/
def not32 (x : Nat) : Nat := 4294967295 - x

/-- UTF-8 encoding of one character (str.encode() in bot.py line 78). -/
def utf8EncodeChar (c : Char) : List Nat :=
  let n := c.toNat
  if n < 128 then [n]
  else if n < 2048 then [192 + n / 64, 128 + n % 64]
  else if n < 65536 then
    [224 + n / 4096, 128 + n / 64 % 64, 128 + n % 64]
  else
    [240 + n / 262144, 128 + n / 4096 % 64, 128 + n / 64 % 64, 128 + n % 64]

/-- UTF-8 byte sequence of a string. -/
def strBytes (s : String) : List Nat := (s.data.map utf8EncodeChar).flatten

/-- Big-endian byte representation of n in exactly k bytes. -/
def beBytes (k n : Nat) : List Nat :=
  match k with
  | 0 => []
  | k + 1 => beBytes k (n / 256) ++ [n % 256]

/-- The 64 SHA-256 round constants, written in decimal. -/
def shaK : List Nat :=
  [1116352408, 1899447441, 3049323471, 3921009573, 961987163,
   1508970993, 2453635748, 2870763221, 3624381080, 310598401,
   607225278, 1426881987, 1925078388, 2162078206, 2614888103,
   3248222580, 3835390401, 4022224774, 264347078, 604807628,
   770255983, 1249150122, 1555081692, 1996064986, 2554220882,
   2821834349, 2952996808, 3210313671, 3336571891, 3584528711,
   113926993, 338241895, 666307205, 773529912, 1294757372,
   1396182291, 1695183700, 1986661051, 2177026350, 2456956037,
   2730485921, 2820302411, 3259730800, 3345764771, 3516065817,
   3600352804, 4094571909, 275423344, 430227734, 506948616,
   659060556, 883997877, 958139571, 1322822218, 1537002063,
   1747873779, 1955562222, 2024104815, 2227730452, 2361852424,
   2428436474, 2756734187, 3204031479, 3329325298]

/-- The eight SHA-256 initial hash values, written in decimal. -/
def shaH0 : List Nat :=
  [1779033703, 3144134277, 1013904242, 2773480762,
   1359893119, 2600822924, 528734635, 1541459225]

/-- Message schedule sigma functions. -/
def smallSigma0 (x : Nat) : Nat := rotr 7 x ^^^ rotr 18 x ^^^ x / 8

def smallSigma1 (x : Nat) : Nat := rotr 17 x ^^^ rotr 19 x ^^^ x / 1024

/-- Group a byte list into big-endian 32-bit words. -/
def toWords : List Nat → List Nat
  | b0 :: b1 :: b2 :: b3 :: rest =>
    (((b0 * 256 + b1) * 256 + b2) * 256 + b3) :: toWords rest
  | _ => []

/-- Extend a 16-word schedule by n further words. -/
def extendSchedule (w : List Nat) : Nat → List Nat
  | 0 => w
  | n + 1 =>
    let t := w32 (w.getD (w.length - 16) 0 +
      smallSigma0 (w.getD (w.length - 15) 0) +
      w.getD (w.length - 7) 0 +
      smallSigma1 (w.getD (w.length - 2) 0))
    extendSchedule (w ++ [t]) n

/-- One SHA-256 compression round on the working state [a,b,c,d,e,f,g,h]. -/
def shaRound (st : List Nat) (ki wi : Nat) : List Nat :=
  match st with
  | [a, b, c, d, e, f, g, h] =>
    let bigS1 := rotr 6 e ^^^ rotr 11 e ^^^ rotr 25 e
    let ch := e &&& f ^^^ (not32 e &&& g)
    let t1 := w32 (h + bigS1 + ch + ki + wi)
    let bigS0 := rotr 2 a ^^^ rotr 13 a ^^^ rotr 22 a
    let maj := a &&& b ^^^ (a &&& c) ^^^ (b &&& c)
    let t2 := w32 (bigS0 + maj)
    [w32 (t1 + t2), a, b, c, w32 (d + t1), e, f, g]
  | _ => st

/-- Process one 64-byte block into the running hash value. -/
def compressBlock (hs : List Nat) (block : List Nat) : List Nat :=
  let w := extendSchedule (toWords block) 48
  let st := (shaK.zip w).foldl (fun st p => shaRound st p.1 p.2) hs
  (hs.zip st).map (fun p => w32 (p.1 + p.2))

/-- Split a byte list into 64-byte chunks. -/
def chunks64 (l : List Nat) : List (List Nat) :=
  if l = [] then [] else l.take 64 :: chunks64 (l.drop 64)
termination_by l.length
decreasing_by
  rename_i hne
  have : l.length ≠ 0 := fun h0 => hne (List.eq_nil_of_length_eq_zero h0)
  simp only [List.length_drop]
  omega

/-- SHA-256 padding: the message, a 0x80 byte, zero bytes up to 56 mod 64,
then the bit length as 8 big-endian bytes. -/
def padMsg (m : List Nat) : List Nat :=
  m ++ [128] ++ List.replicate ((64 - (m.length + 9) % 64) % 64) 0 ++
    beBytes 8 (m.length * 8)

/-- SHA-256 digest of a byte list, as 32 bytes. -/
def sha256Bytes (m : List Nat) : List Nat :=
  (((chunks64 (padMsg m)).foldl compressBlock shaH0).map (beBytes 4)).flatten

/-- Lower-case hexadecimal digit. -/
def hexDigit (n : Nat) : Char :=
  if n < 10 then Char.ofNat (48 + n) else Char.ofNat (87 + n)

/-- Lower-case hexadecimal rendering of a byte list (hexdigest()). -/
def hexOfBytes (bs : List Nat) : String :=
  String.mk ((bs.map (fun b => [hexDigit (b / 16), hexDigit (b % 16)])).flatten)

/-- SHA-256 hex digest of a byte list. -/
def sha256Hex (m : List Nat) : String := hexOfBytes (sha256Bytes m)

/- ------------------------------------------------------------------ -/
/- Feed entries and fingerprints (bot.py lines 76-79)                  -/
/- ------------------------------------------------------------------ -/

/-- One item of a parsed feed; absent fields are the empty string, matching
entry.get(..., "") in bot.py. -/
structure FeedEntry where
  id : String
  link : String
  title : String
  summary : String
deriving DecidableEq

/-- The fingerprint of an entry (bot.py lines 76-79):
hashlib.sha256((entry.get("id","") + entry.get("link","")).encode()).hexdigest(). -/
def post_id (e : FeedEntry) : String := sha256Hex (strBytes (e.id ++ e.link))

/- ------------------------------------------------------------------ -/
/- Dispatcher lemmas                                                   -/
/- ------------------------------------------------------------------ -/

theorem send_worker_fail_queue (s : DispatchState) (now : Nat)
    (resp : Option Nat) (hfail : isFail resp = true) :
    (send_worker s now resp).1.queue = s.queue := by
  cases s with
  | mk q b l =>
    cases q with
    | nil => rfl
    | cons m rest =>
      cases resp with
      | none => rfl
      | some c =>
        simp only [isFail, beq_iff_eq] at hfail
        subst hfail
        simp [send_worker]

theorem send_worker_fail_backoff (s : DispatchState) (now : Nat)
    (resp : Option Nat) (hfail : isFail resp = true) (hq : s.queue ≠ []) :
    (send_worker s now resp).1.backoff = escalate s.backoff := by
  cases s with
  | mk q b l =>
    cases q with
    | nil => simp at hq
    | cons m rest =>
      cases resp with
      | none => rfl
      | some c =>
        simp only [isFail, beq_iff_eq] at hfail
        subst hfail
        simp [send_worker]

theorem send_worker_fail_delivers_none (s : DispatchState) (now : Nat)
    (resp : Option Nat) (hfail : isFail resp = true) :
    (send_worker s now resp).2 = none := by
  cases s with
  | mk q b l =>
    cases q with
    | nil => rfl
    | cons m rest =>
      cases resp with
      | none => rfl
      | some c =>
        simp only [isFail, beq_iff_eq] at hfail
        subst hfail
        simp [send_worker]

theorem send_worker_ok (s : DispatchState) (now : Nat) (c : Nat)
    (hc : c ≠ 429) (m : String) (rest : List String)
    (hq : s.queue = m :: rest) :
    send_worker s now (some c) =
      ({ queue := rest, backoff := 0, lastSend := now }, some m) := by
  cases s with
  | mk q b l =>
    simp only at hq
    subst hq
    simp [send_worker, hc]

/-- Delivered messages of a drain are exactly an initial segment of the
queue: the first k messages in queue order, where k is the number of
consuming (non-429, non-exception) responses. -/
theorem drain_delivers_take (now : Nat) :
    ∀ (rs : List (Option Nat)) (s : DispatchState),
      (drain s now rs).2 = s.queue.take (rs.countP isOk) := by
  intro rs
  induction rs with
  | nil => intro s; simp [drain]
  | cons r rs ih =>
    intro s
    cases hq : s.queue with
    | nil =>
      have hstep : send_worker s now r = (s, none) := by
        cases s with
        | mk q b l => simp only at hq; subst hq; rfl
      simp [drain, hstep, ih, hq]
    | cons m rest =>
      cases hok : isOk r with
      | true =>
        have hc : ∃ c, r = some c ∧ c ≠ 429 := by
          cases r with
          | none => simp [isOk] at hok
          | some c =>
            refine ⟨c, rfl, ?_⟩
            simpa [isOk] using hok
        obtain ⟨c, hr, hc429⟩ := hc
        subst hr
        have hstep := send_worker_ok s now c hc429 m rest hq
        simp [drain, hstep, ih, hq, List.countP_cons, hok,
          List.take_succ_cons]
      | false =>
        have hfail : isFail r = true := by
          cases r with
          | none => rfl
          | some c => simpa [isOk, isFail] using hok
        have hqueue := send_worker_fail_queue s now r hfail
        have hdel := send_worker_fail_delivers_none s now r hfail
        simp [drain, hdel, ih, hqueue, hq, List.countP_cons, hok]

/- ------------------------------------------------------------------ -/
/- Claim C1                                                            -/
/- ------------------------------------------------------------------ -/

/-- C1.  Queue ordering under failure: with the outbound queue holding
m1 :: m2 :: rest, a failed send of m1 (rate-limit response or transport
exception) re-inserts m1 at the head — the queue is exactly as before, so no
message is lost — a message enqueued afterwards goes strictly behind both,
and every subsequent drain delivers an initial segment of m1 :: m2 :: rest
in queue order, hence m1 always strictly before m2. -/
theorem C1_queue_ordering_under_failure (s : DispatchState) (now : Nat)
    (resp : Option Nat) (m1 m2 : String) (rest : List String)
    (hq : s.queue = m1 :: m2 :: rest) (hfail : isFail resp = true) :
    (send_worker s now resp).1.queue = m1 :: m2 :: rest ∧
    (∀ m3, (enqueueMsg (send_worker s now resp).1 m3).queue =
      m1 :: m2 :: rest ++ [m3]) ∧
    (∀ (now2 : Nat) (rs : List (Option Nat)),
      (drain (send_worker s now resp).1 now2 rs).2 =
        (m1 :: m2 :: rest).take (rs.countP isOk)) := by
  have hqueue := send_worker_fail_queue s now resp hfail
  rw [hq] at hqueue
  refine ⟨hqueue, ?_, ?_⟩
  · intro m3
    simp [enqueueMsg, hqueue]
  · intro now2 rs
    rw [drain_delivers_take now2 rs, hqueue]

theorem C1_queue_ordering_under_failure_witness :
    (send_worker ⟨["a", "b"], 0, 0⟩ 7 (some 429)).1.queue = ["a", "b"] ∧
    (∀ m3, (enqueueMsg (send_worker ⟨["a", "b"], 0, 0⟩ 7 (some 429)).1
        m3).queue = "a" :: "b" :: [] ++ [m3]) ∧
    (∀ (now2 : Nat) (rs : List (Option Nat)),
      (drain (send_worker ⟨["a", "b"], 0, 0⟩ 7 (some 429)).1 now2 rs).2 =
        ("a" :: "b" :: []).take (rs.countP isOk)) :=
  C1_queue_ordering_under_failure ⟨["a", "b"], 0, 0⟩ 7 (some 429)
    "a" "b" [] rfl rfl

/- ------------------------------------------------------------------ -/
/- Backoff escalation lemmas                                           -/
/- ------------------------------------------------------------------ -/

theorem escalate_min_pow (j : Nat) :
    escalate (min (5 * 2 ^ j) 120) = min (5 * 2 ^ (j + 1)) 120 := by
  have hpos : 0 < 5 * 2 ^ j := by positivity
  have hne : min (5 * 2 ^ j) 120 ≠ 0 := by
    have : 0 < min (5 * 2 ^ j) 120 := lt_min hpos (by norm_num)
    omega
  rcases le_or_lt (5 * 2 ^ j) 120 with h | h
  · rw [min_eq_left h]
    simp only [escalate, if_pos (by omega : 5 * 2 ^ j ≠ 0)]
    congr 1
    rw [pow_succ]
    ring
  · rw [min_eq_right h.le]
    have h2 : (120 : Nat) ≤ 5 * 2 ^ (j + 1) := by
      calc (120 : Nat) ≤ 5 * 2 ^ j := h.le
        _ ≤ 5 * 2 ^ (j + 1) :=
          Nat.mul_le_mul_left 5 (Nat.pow_le_pow_right (by norm_num) (by omega))
    rw [min_eq_right h2]
    decide

theorem runWorker_cons (s : DispatchState) (now : Nat) (r : Option Nat)
    (rs : List (Option Nat)) :
    runWorker s now (r :: rs) = runWorker (send_worker s now r).1 now rs :=
  rfl

theorem runWorker_fail_backoff :
    ∀ (rs : List (Option Nat)) (s : DispatchState) (now j : Nat),
      (∀ r ∈ rs, isFail r = true) → s.queue ≠ [] →
      s.backoff = min (5 * 2 ^ j) 120 →
      (runWorker s now rs).backoff = min (5 * 2 ^ (j + rs.length)) 120 := by
  intro rs
  induction rs with
  | nil =>
    intro s now j _ _ hb
    simpa [runWorker] using hb
  | cons r rs ih =>
    intro s now j hfail hq hb
    rw [runWorker_cons]
    have hr : isFail r = true := hfail r (by simp)
    have hq2 : (send_worker s now r).1.queue ≠ [] := by
      rw [send_worker_fail_queue s now r hr]; exact hq
    have hb2 : (send_worker s now r).1.backoff = min (5 * 2 ^ (j + 1)) 120 := by
      rw [send_worker_fail_backoff s now r hr hq, hb, escalate_min_pow]
    have := ih (send_worker s now r).1 now (j + 1)
      (fun x hx => hfail x (by simp [hx])) hq2 hb2
    rw [this]
    have hexp : j + 1 + rs.length = j + (r :: rs).length := by
      simp [List.length_cons]; omega
    rw [hexp]

/- ------------------------------------------------------------------ -/
/- Claim C3                                                            -/
/- ------------------------------------------------------------------ -/

/-- C3.  Backoff escalation and reset: starting from backoff 0 on a
nonempty queue, after n consecutive failing dispatcher invocations (each a
rate-limit response or a transport exception) the backoff delay is
min(5 * 2 ^ (n - 1), 120) — the sequence 5, 10, 20, 40, 80, 120, 120, ... —
and a single successful (non-429) send resets the backoff delay to 0. -/
theorem C3_backoff_escalation_and_reset :
    (∀ (s : DispatchState) (now : Nat) (rs : List (Option Nat)),
      s.backoff = 0 → s.queue ≠ [] → rs ≠ [] →
      (∀ r ∈ rs, isFail r = true) →
      (runWorker s now rs).backoff = min (5 * 2 ^ (rs.length - 1)) 120) ∧
    (∀ (s : DispatchState) (now c : Nat), s.queue ≠ [] → c ≠ 429 →
      (send_worker s now (some c)).1.backoff = 0) := by
  constructor
  · intro s now rs hb hq hne hfail
    cases rs with
    | nil => exact absurd rfl hne
    | cons r rs =>
      rw [runWorker_cons]
      have hr : isFail r = true := hfail r (by simp)
      have hq2 : (send_worker s now r).1.queue ≠ [] := by
        rw [send_worker_fail_queue s now r hr]; exact hq
      have hb2 : (send_worker s now r).1.backoff = min (5 * 2 ^ 0) 120 := by
        rw [send_worker_fail_backoff s now r hr hq, hb]
        simp [escalate, BACKOFF_START, BACKOFF_MAX]
      have := runWorker_fail_backoff rs (send_worker s now r).1 now 0
        (fun x hx => hfail x (by simp [hx])) hq2 hb2
      rw [this]
      have hexp : 0 + rs.length = (r :: rs).length - 1 := by
        simp [List.length_cons]
      rw [hexp]
  · intro s now c hq hc
    cases hqe : s.queue with
    | nil => exact absurd hqe hq
    | cons m rest =>
      rw [send_worker_ok s now c hc m rest hqe]

theorem C3_backoff_escalation_and_reset_witness :
    (runWorker ⟨["a"], 0, 0⟩ 3
        [some 429, none, some 429, none, some 429, some 429] ).backoff =
      min (5 * 2 ^ (([some 429, none, some 429, none, some 429,
        some 429] : List (Option Nat)).length - 1)) 120 ∧
    (send_worker ⟨["a"], 40, 0⟩ 3 (some 200)).1.backoff = 0 :=
  ⟨C3_backoff_escalation_and_reset.1 ⟨["a"], 0, 0⟩ 3
      [some 429, none, some 429, none, some 429, some 429] rfl
      (by decide) (by decide) (by decide),
    C3_backoff_escalation_and_reset.2 ⟨["a"], 40, 0⟩ 3 200
      (by decide) (by decide)⟩

/- ------------------------------------------------------------------ -/
/- Claim C4                                                            -/
/- ------------------------------------------------------------------ -/

/-- C4.  Non-rate-limit responses are consumed: on a nonempty queue, any
HTTP status other than 429 (including non-2xx errors) consumes the dequeued
message, resets the backoff to 0 and sets the last-send timestamp to now,
while a 429 response re-inserts the message at the head, escalates the
backoff and leaves the last-send timestamp unchanged. -/
theorem C4_non_rate_limit_consumed (s : DispatchState) (now : Nat)
    (m : String) (rest : List String) (hq : s.queue = m :: rest) :
    (∀ c, c ≠ 429 → send_worker s now (some c) =
      ({ queue := rest, backoff := 0, lastSend := now }, some m)) ∧
    send_worker s now (some 429) =
      ({ queue := m :: rest, backoff := escalate s.backoff,
         lastSend := s.lastSend }, none) := by
  constructor
  · intro c hc
    exact send_worker_ok s now c hc m rest hq
  · cases s with
    | mk q b l =>
      simp only at hq
      subst hq
      simp [send_worker]

theorem C4_non_rate_limit_consumed_witness :
    (∀ c, c ≠ 429 → send_worker ⟨["m", "n"], 20, 9⟩ 77 (some c) =
      ({ queue := ["n"], backoff := 0, lastSend := 77 }, some "m")) ∧
    send_worker ⟨["m", "n"], 20, 9⟩ 77 (some 429) =
      ({ queue := "m" :: ["n"], backoff := escalate 20,
         lastSend := 9 }, none) :=
  C4_non_rate_limit_consumed ⟨["m", "n"], 20, 9⟩ 77 "m" ["n"] rfl

/- ------------------------------------------------------------------ -/
/- Claim C2                                                            -/
/- ------------------------------------------------------------------ -/

/-- C2 counterexample.  Distinct (id, link) pairs can systematically map to
the same fingerprint: the hash input is the bare concatenation id + link
(bot.py line 78), so the entries ("ab", "c") and ("a", "bc") — a distinct
pair of (id, link) values — hash the same string "abc" and receive
identical fingerprints with certainty, not merely with the negligible
probability of a SHA-256 collision. -/
theorem C2_fingerprint_distinctness_cex :
    ((FeedEntry.mk "ab" "c" "" "").id, (FeedEntry.mk "ab" "c" "" "").link) ≠
      ((FeedEntry.mk "a" "bc" "" "").id, (FeedEntry.mk "a" "bc" "" "").link) ∧
    post_id (FeedEntry.mk "ab" "c" "" "") =
      post_id (FeedEntry.mk "a" "bc" "" "") := by
  constructor
  · decide
  · show sha256Hex (strBytes ("ab" ++ "c")) = sha256Hex (strBytes ("a" ++ "bc"))
    have h : "ab" ++ "c" = "a" ++ "bc" := by decide
    rw [h]

/-- C2 (amended).  The fingerprint is deterministic and depends only on the
concatenation id + link: items with identical (id, link) always produce the
same fingerprint, and more generally any two items whose concatenations
id ++ link agree — including distinct (id, link) pairs such as ("ab", "c")
and ("a", "bc") — produce identical fingerprints, so distinctness can only
hold for items with distinct concatenations. -/
theorem C2_fingerprint_determinism (a b : FeedEntry)
    (hcat : a.id ++ a.link = b.id ++ b.link) :
    post_id a = post_id b ∧
    (a.id = b.id → a.link = b.link → post_id a = post_id b) := by
  have h : post_id a = post_id b := by
    show sha256Hex (strBytes (a.id ++ a.link)) =
      sha256Hex (strBytes (b.id ++ b.link))
    rw [hcat]
  exact ⟨h, fun _ _ => h⟩

theorem C2_fingerprint_determinism_witness :
    post_id (FeedEntry.mk "t1" "http://x" "w" "s") =
      post_id (FeedEntry.mk "t1" "http://x" "other" "fields") ∧
    ((FeedEntry.mk "t1" "http://x" "w" "s").id =
        (FeedEntry.mk "t1" "http://x" "other" "fields").id →
      (FeedEntry.mk "t1" "http://x" "w" "s").link =
        (FeedEntry.mk "t1" "http://x" "other" "fields").link →
      post_id (FeedEntry.mk "t1" "http://x" "w" "s") =
        post_id (FeedEntry.mk "t1" "http://x" "other" "fields")) :=
  C2_fingerprint_determinism (FeedEntry.mk "t1" "http://x" "w" "s")
    (FeedEntry.mk "t1" "http://x" "other" "fields") rfl

/- ------------------------------------------------------------------ -/
/- Seen set (bot.py lines 64, 89-91, 158-159, 181-182)                 -/
/- ------------------------------------------------------------------ -/

/-- Eviction loop of bot.py lines 89-91: while len(seen) > MAX_SEEN pop the
oldest entry (popitem(last=False)).  The seen set is the insertion-ordered
association list of fingerprint/first-seen-timestamp pairs embedding the
OrderedDict, oldest first. -/
def prune_seen (s : List (String × Nat)) : List (String × Nat) :=
  if MAX_SEEN < s.length then prune_seen s.tail else s
termination_by s.length
decreasing_by
  rename_i h
  simp only [List.length_tail]
  omega

/-- The seen-set update the main loop performs per item: the membership
test of line 159 (if pid in seen: continue) guarding the insertion
seen[pid] = now of line 181 followed by prune_seen() on line 182. -/
def record1 (s : List (String × Nat)) (fp : String) (t : Nat) :
    List (String × Nat) :=
  if s.any (fun p => p.1 == fp) then s else prune_seen (s ++ [(fp, t)])

/-- Folding a sequence of record operations over the initially empty seen
set (seen = OrderedDict() on line 64). -/
def runRecords (ops : List (String × Nat)) : List (String × Nat) :=
  ops.foldl (fun s op => record1 s op.1 op.2) []

/-- record1 instrumented to also accumulate, in order, the entries that are
actually inserted (those passing the membership guard). -/
def recordStep (pr : List (String × Nat) × List (String × Nat))
    (op : String × Nat) : List (String × Nat) × List (String × Nat) :=
  if pr.1.any (fun p => p.1 == op.1) then pr
  else (prune_seen (pr.1 ++ [op]), pr.2 ++ [op])

/-- The sequence of entries actually inserted by a run of record
operations, in insertion order. -/
def acceptedRecords (ops : List (String × Nat)) : List (String × Nat) :=
  (ops.foldl recordStep ([], [])).2

theorem prune_seen_eq_drop_aux :
    ∀ (n : Nat) (s : List (String × Nat)), s.length ≤ n →
      prune_seen s = s.drop (s.length - MAX_SEEN) := by
  intro n
  induction n with
  | zero =>
    intro s hs
    have : s = [] := List.eq_nil_of_length_eq_zero (by omega)
    subst this
    simp [prune_seen]
  | succ n ih =>
    intro s hs
    rw [prune_seen]
    split
    · next h =>
      have hlen : s.tail.length ≤ n := by
        simp only [List.length_tail]; omega
      rw [ih s.tail hlen]
      rw [← List.drop_one, List.drop_drop]
      exact congrArg (fun k => List.drop k s)
        (by simp only [List.length_drop]; omega)
    · next h =>
      rw [Nat.sub_eq_zero_of_le (by omega), List.drop_zero]

theorem prune_seen_eq_drop (s : List (String × Nat)) :
    prune_seen s = s.drop (s.length - MAX_SEEN) :=
  prune_seen_eq_drop_aux s.length s le_rfl

theorem recordStep_fst (pr : List (String × Nat) × List (String × Nat))
    (op : String × Nat) : (recordStep pr op).1 = record1 pr.1 op.1 op.2 := by
  simp only [recordStep, record1]
  split
  · rfl
  · rfl

theorem foldl_recordStep_fst :
    ∀ (ops : List (String × Nat))
      (pr : List (String × Nat) × List (String × Nat)),
      (ops.foldl recordStep pr).1 =
        ops.foldl (fun s op => record1 s op.1 op.2) pr.1 := by
  intro ops
  induction ops with
  | nil => intro pr; rfl
  | cons op ops ih =>
    intro pr
    simp only [List.foldl_cons]
    rw [ih, recordStep_fst]

theorem recordStep_inv (pr : List (String × Nat) × List (String × Nat))
    (op : String × Nat)
    (h : pr.1 = pr.2.drop (pr.2.length - MAX_SEEN)) :
    (recordStep pr op).1 =
      (recordStep pr op).2.drop ((recordStep pr op).2.length - MAX_SEEN) := by
  have hM : 1 ≤ MAX_SEEN := by norm_num [MAX_SEEN]
  simp only [recordStep]
  split
  · exact h
  · simp only
    rw [prune_seen_eq_drop, h]
    rcases le_or_lt pr.2.length MAX_SEEN with hle | hlt
    · rw [Nat.sub_eq_zero_of_le hle, List.drop_zero]
    · have hlen : (pr.2.drop (pr.2.length - MAX_SEEN)).length = MAX_SEEN := by
        simp only [List.length_drop]; omega
      rw [List.length_append, hlen]
      have h1 : MAX_SEEN + [op].length - MAX_SEEN = 1 := by
        simp only [List.length_singleton]; omega
      rw [h1]
      have h2 : (1 : Nat) ≤ (pr.2.drop (pr.2.length - MAX_SEEN)).length := by
        omega
      rw [List.drop_append_of_le_length h2, List.drop_drop]
      rw [List.length_append]
      have h3 : (pr.2.length + [op].length - MAX_SEEN) ≤ pr.2.length := by
        simp only [List.length_singleton]; omega
      rw [List.drop_append_of_le_length h3]
      exact congrArg (fun k => List.drop k pr.2 ++ [op])
        (by simp only [List.length_singleton]; omega)

theorem foldl_recordStep_inv :
    ∀ (ops : List (String × Nat))
      (pr : List (String × Nat) × List (String × Nat)),
      pr.1 = pr.2.drop (pr.2.length - MAX_SEEN) →
      (ops.foldl recordStep pr).1 =
        (ops.foldl recordStep pr).2.drop
          ((ops.foldl recordStep pr).2.length - MAX_SEEN) := by
  intro ops
  induction ops with
  | nil => intro pr h; exact h
  | cons op ops ih =>
    intro pr h
    simp only [List.foldl_cons]
    exact ih (recordStep pr op) (recordStep_inv pr op h)

/- ------------------------------------------------------------------ -/
/- Claim C5                                                            -/
/- ------------------------------------------------------------------ -/

/-- C5.  Seen-set capacity invariant: after any sequence of record
operations starting from the empty seen set, the retained seen set is
exactly the accepted insertion sequence with everything but its most recent
MAX_SEEN entries dropped from the oldest end — so its size never exceeds
MAX_SEEN = 3000 and eviction removes oldest entries (by insertion order)
first. -/
theorem C5_seen_set_capacity (ops : List (String × Nat)) :
    runRecords ops =
      (acceptedRecords ops).drop ((acceptedRecords ops).length - MAX_SEEN) ∧
    (runRecords ops).length ≤ MAX_SEEN := by
  have hfold : runRecords ops = (ops.foldl recordStep ([], [])).1 :=
    (foldl_recordStep_fst ops ([], [])).symm
  have hinv := foldl_recordStep_inv ops ([], []) (by simp)
  constructor
  · rw [hfold]
    exact hinv
  · rw [hfold, hinv]
    simp only [List.length_drop, acceptedRecords]
    omega

/- ------------------------------------------------------------------ -/
/- Claim C6                                                            -/
/- ------------------------------------------------------------------ -/

/-- C6.  First-seen timestamp immutability: if the seen set already holds
fingerprint fp (with some timestamp t0), recording (fp, t1) leaves the seen
set — and in particular fp's stored timestamp t0 — completely unchanged:
the membership guard of bot.py line 159 skips the item before the
insertion of line 181 can overwrite anything. -/
theorem C6_first_seen_immutable (s : List (String × Nat)) (fp : String)
    (t0 t1 : Nat) (h : (fp, t0) ∈ s) : record1 s fp t1 = s := by
  have hany : s.any (fun p => p.1 == fp) = true := by
    rw [List.any_eq_true]
    exact ⟨(fp, t0), h, by simp⟩
  simp only [record1, hany, if_true]

theorem C6_first_seen_immutable_witness :
    record1 [("aaa", 5), ("bbb", 6)] "aaa" 99 = [("aaa", 5), ("bbb", 6)] :=
  C6_first_seen_immutable [("aaa", 5), ("bbb", 6)] "aaa" 5 99 (by simp)

/- ------------------------------------------------------------------ -/
/- Matcher (bot.py lines 33-40, 59-62, 166)                            -/
/- ------------------------------------------------------------------ -/

/-- The keyword list of bot.py lines 33-40, in declaration order. -/
def KEYWORDS : List String :=
  ["problem", "issue", "error", "bug", "glitch", "crash", "not working",
   "failed", "lost", "scammed", "hacked", "stolen", "fraud",
   "phishing", "locked", "banned", "kyc", "login",
   "withdrawal", "deposit", "balance", "urgent", "wallet",
   "seed phrase", "private key", "network", "outage", "downtime",
   "exploit", "attack", "lawsuit", "regulation"]

/-- ASCII lower-casing, the fragment of re.IGNORECASE this program
exercises (all keywords are ASCII). -/
def lowerAscii (c : Char) : Char :=
  if 'A' ≤ c && c ≤ 'Z' then Char.ofNat (c.toNat + 32) else c

/-- Word character for the regex metacharacter backslash-b, ASCII fragment:
letters, digits and underscore. -/
def isWordChar (c : Char) : Bool :=
  ('a' ≤ c && c ≤ 'z') || ('A' ≤ c && c ≤ 'Z') ||
    ('0' ≤ c && c ≤ '9') || c == '_'

/-- Whether position i of the text holds a word character (out of range
counts as non-word). -/
def isWordAt (text : List Char) (i : Nat) : Bool :=
  match text.get? i with
  | some c => isWordChar c
  | none => false

/-- Word boundary at position p: the word-ness of the preceding character
(non-word before position 0) differs from the word-ness at p. -/
def wordBoundary (text : List Char) (p : Nat) : Bool :=
  (match p with
   | 0 => false
   | q + 1 => isWordAt text q) != isWordAt text p

/-- Case-insensitive literal match of kw against the head of the text. -/
def ciHead : List Char → List Char → Bool
  | [], _ => true
  | _ :: _, [] => false
  | k :: ks, c :: cs => (lowerAscii c == lowerAscii k) && ciHead ks cs

/-- One alternative of the compiled pattern backslash-b(k1|...|kn)backslash-b
matching at position p: word boundary at p, the keyword case-insensitively
at p, and a word boundary right after it.  This is the success condition the
regex engine checks for one alternative before backtracking to the next. -/
def matchKwAt (text : List Char) (p : Nat) (kw : String) : Bool :=
  wordBoundary text p && ciHead kw.data (text.drop p) &&
    wordBoundary text (p + kw.data.length)

/-- The alternation at one position: the first keyword in declaration order
whose alternative succeeds there (regex alternation is first-match-wins). -/
def findAtPos (text : List Char) (p : Nat) : Option String :=
  KEYWORDS.find? (fun kw => matchKwAt text p kw)

/-- Left-to-right scan of the positions, as re.search does. -/
def searchAux (text : List Char) : Nat → Nat → Option (Nat × String)
  | 0, _ => none
  | fuel + 1, p =>
    match findAtPos text p with
    | some kw => some (p, kw)
    | none => searchAux text fuel (p + 1)

/-- keyword_regex.search (bot.py lines 59-62, 166): the leftmost position
where any keyword matches as a whole word case-insensitively, together with
the matching keyword, declaration order breaking ties at equal positions. -/
def search (text : List Char) : Option (Nat × String) :=
  searchAux text (text.length + 1) 0

/- ------------------------------------------------------------------ -/
/- Matcher lemmas                                                      -/
/- ------------------------------------------------------------------ -/

theorem find?_eq_some_split {α : Type} (f : α → Bool) :
    ∀ (l : List α) (a : α), l.find? f = some a →
      f a = true ∧ ∃ l1 l2, l = l1 ++ a :: l2 ∧ ∀ x ∈ l1, f x = false := by
  intro l
  induction l with
  | nil => intro a h; simp [List.find?] at h
  | cons b l ih =>
    intro a h
    cases hb : f b with
    | true =>
      rw [List.find?_cons_of_pos _ hb] at h
      injection h with h
      subst h
      exact ⟨hb, [], l, rfl, by simp⟩
    | false =>
      rw [List.find?_cons_of_neg _ (by simp [hb])] at h
      obtain ⟨hfa, l1, l2, heq, hall⟩ := ih a h
      refine ⟨hfa, b :: l1, l2, by simp [heq], ?_⟩
      intro x hx
      rcases List.mem_cons.mp hx with hxb | hxl
      · subst hxb; exact hb
      · exact hall x hxl

theorem searchAux_some (text : List Char) :
    ∀ (fuel p q : Nat) (kw : String),
      searchAux text fuel p = some (q, kw) →
      p ≤ q ∧ findAtPos text q = some kw ∧
        ∀ r, p ≤ r → r < q → findAtPos text r = none := by
  intro fuel
  induction fuel with
  | zero => intro p q kw h; simp [searchAux] at h
  | succ fuel ih =>
    intro p q kw h
    simp only [searchAux] at h
    cases hf : findAtPos text p with
    | some kw0 =>
      rw [hf] at h
      injection h with h
      injection h with h1 h2
      subst h1
      subst h2
      exact ⟨le_rfl, hf, fun r hr1 hr2 => absurd (lt_of_le_of_lt hr1 hr2)
        (lt_irrefl p)⟩
    | none =>
      rw [hf] at h
      obtain ⟨hle, hfind, hnone⟩ := ih (p + 1) q kw h
      refine ⟨by omega, hfind, ?_⟩
      intro r hr1 hr2
      rcases Nat.eq_or_lt_of_le hr1 with hrp | hrp
      · subst hrp; exact hf
      · exact hnone r (by omega) hr2

theorem searchAux_none (text : List Char) :
    ∀ (fuel p : Nat), searchAux text fuel p = none →
      ∀ r, p ≤ r → r < p + fuel → findAtPos text r = none := by
  intro fuel
  induction fuel with
  | zero => intro p h r hr1 hr2; omega
  | succ fuel ih =>
    intro p h r hr1 hr2
    simp only [searchAux] at h
    cases hf : findAtPos text p with
    | some kw0 => rw [hf] at h; exact absurd h (by simp)
    | none =>
      rw [hf] at h
      rcases Nat.eq_or_lt_of_le hr1 with hrp | hrp
      · subst hrp; exact hf
      · exact ih (p + 1) h r (by omega) (by omega)

theorem keywords_nonempty : ∀ kw ∈ KEYWORDS, kw.data ≠ [] := by
  decide

theorem matchKwAt_past_end (text : List Char) (p : Nat) (kw : String)
    (hkw : kw.data ≠ []) (hp : text.length < p) :
    matchKwAt text p kw = false := by
  have hdrop : text.drop p = [] := List.drop_eq_nil_of_le (by omega)
  cases hd : kw.data with
  | nil => exact absurd hd hkw
  | cons k ks =>
    simp only [matchKwAt, hd, hdrop, ciHead]
    simp

theorem findAtPos_none_no_match (text : List Char) (p : Nat)
    (h : findAtPos text p = none) :
    ∀ kw ∈ KEYWORDS, matchKwAt text p kw = false := by
  intro kw hkw
  exact Bool.eq_false_iff.mpr (List.find?_eq_none.mp h kw hkw)

/- ------------------------------------------------------------------ -/
/- Claim C7                                                            -/
/- ------------------------------------------------------------------ -/

/-- C7.  Matcher semantics: when search finds (p, kw), kw is a configured
keyword matching at position p as a whole word (boundaries both sides,
case-insensitively), no keyword matches at any earlier position, and no
keyword declared before kw matches at p (ties broken by declaration order);
when search finds nothing, no keyword matches as a whole word anywhere.
In particular "walletx" does not match, "my wallet is gone" matches
"wallet" (at position 3), and "WALLET" matches "wallet" case-insensitively. -/
theorem C7_matcher_semantics :
    (∀ (text : List Char) (p : Nat) (kw : String),
      search text = some (p, kw) →
        kw ∈ KEYWORDS ∧ matchKwAt text p kw = true ∧
        (∀ q, q < p → ∀ k ∈ KEYWORDS, matchKwAt text q k = false) ∧
        (∃ l1 l2, KEYWORDS = l1 ++ kw :: l2 ∧
          ∀ k ∈ l1, matchKwAt text p k = false)) ∧
    (∀ text : List Char, search text = none →
      ∀ (p : Nat), ∀ k ∈ KEYWORDS, matchKwAt text p k = false) ∧
    search "walletx".data = none ∧
    search "my wallet is gone".data = some (3, "wallet") ∧
    search "WALLET".data = some (0, "wallet") := by
  refine ⟨?_, ?_, by decide, by decide, by decide⟩
  · intro text p kw h
    obtain ⟨_, hfind, hnone⟩ := searchAux_some text (text.length + 1) 0 p kw h
    obtain ⟨hmatch, l1, l2, heq, hall⟩ := find?_eq_some_split _ KEYWORDS kw hfind
    refine ⟨by rw [heq]; simp, hmatch, ?_, ⟨l1, l2, heq, hall⟩⟩
    intro q hq k hk
    exact findAtPos_none_no_match text q (hnone q (Nat.zero_le q) hq) k hk
  · intro text h p k hk
    rcases le_or_lt p text.length with hp | hp
    · exact findAtPos_none_no_match text p
        (searchAux_none text (text.length + 1) 0 h p (Nat.zero_le p)
          (by omega)) k hk
    · exact matchKwAt_past_end text p k (keywords_nonempty k hk) hp

theorem C7_matcher_semantics_witness :
    "wallet" ∈ KEYWORDS ∧
    matchKwAt "my wallet is gone".data 3 "wallet" = true ∧
    (∀ q, q < 3 → ∀ k ∈ KEYWORDS,
      matchKwAt "my wallet is gone".data q k = false) ∧
    (∃ l1 l2, KEYWORDS = l1 ++ "wallet" :: l2 ∧
      ∀ k ∈ l1, matchKwAt "my wallet is gone".data 3 k = false) :=
  C7_matcher_semantics.1 "my wallet is gone".data 3 "wallet" (by decide)

/- ------------------------------------------------------------------ -/
/- Sanitizer (bot.py lines 81-87)                                      -/
/- ------------------------------------------------------------------ -/

/-- Whitespace for the regex metacharacter backslash-s and str.strip(),
ASCII fragment: space, tab, newline, carriage return, vertical tab, form
feed. -/
def isSpace (c : Char) : Bool :=
  c == ' ' || c == '\t' || c == '\n' || c == '\r' ||
    c == Char.ofNat 11 || c == Char.ofNat 12

/-- Model of html.unescape's entity recognition at one position (the
character after an ampersand): the named and numeric entities relevant to
this program — exactly those html.escape can emit, plus their
semicolon-less HTML5 variants.  Returns the decoded character and the
number of characters consumed after the ampersand. -/
def matchEntity : List Char → Option (Char × Nat)
  | 'a' :: 'm' :: 'p' :: ';' :: _ => some ('&', 4)
  | 'a' :: 'm' :: 'p' :: _ => some ('&', 3)
  | 'l' :: 't' :: ';' :: _ => some ('<', 3)
  | 'l' :: 't' :: _ => some ('<', 2)
  | 'g' :: 't' :: ';' :: _ => some ('>', 3)
  | 'g' :: 't' :: _ => some ('>', 2)
  | 'q' :: 'u' :: 'o' :: 't' :: ';' :: _ => some ('"', 5)
  | 'q' :: 'u' :: 'o' :: 't' :: _ => some ('"', 4)
  | '#' :: 'x' :: '2' :: '7' :: ';' :: _ => some ('\'', 5)
  | '#' :: '3' :: '9' :: ';' :: _ => some ('\'', 4)
  | _ => none

/-- Model of html.unescape (bot.py line 84): each ampersand starting a
recognised entity is replaced by the decoded character; any other character
is copied. -/
def unescapeL : List Char → List Char
  | [] => []
  | c :: rest =>
    if c = '&' then
      match matchEntity rest with
      | some (d, k) => d :: unescapeL (rest.drop k)
      | none => '&' :: unescapeL rest
    else c :: unescapeL rest
termination_by l => l.length
decreasing_by
  · simp only [List.length_drop, List.length_cons]; omega
  · simp only [List.length_cons]; omega
  · simp only [List.length_cons]; omega

/-- Index of the first greater-than sign. -/
def gtIndex : List Char → Option Nat
  | [] => none
  | c :: rest => if c = '>' then some 0 else (gtIndex rest).map (· + 1)

/-- Given the text following a less-than sign, the number of characters the
regex <[^>]+> consumes after that sign if it matches there: at least one
non-greater-than character followed by the first greater-than sign. -/
def tagEnd : List Char → Option Nat
  | [] => none
  | c :: rest => if c = '>' then none else (gtIndex rest).map (· + 2)

/-- Model of re.sub("<[^>]+>", "", text) (bot.py line 85): one left-to-right
pass removing every non-overlapping match of <[^>]+>. -/
def stripTags : List Char → List Char
  | [] => []
  | c :: rest =>
    if c = '<' then
      match tagEnd rest with
      | some k => stripTags (rest.drop k)
      | none => '<' :: stripTags rest
    else c :: stripTags rest
termination_by l => l.length
decreasing_by
  · simp only [List.length_drop, List.length_cons]; omega
  · simp only [List.length_cons]; omega
  · simp only [List.length_cons]; omega

/-- Model of re.sub(backslash-s+, " ", text) (bot.py line 86): every maximal
whitespace run becomes a single space. -/
def collapseWs : List Char → List Char
  | [] => []
  | c :: rest =>
    if isSpace c then ' ' :: collapseWs (rest.dropWhile isSpace)
    else c :: collapseWs rest
termination_by l => l.length
decreasing_by
  · have := List.Sublist.length_le (List.dropWhile_sublist (l := rest) isSpace)
    simp only [List.length_cons]
    omega
  · simp only [List.length_cons]; omega

/-- Model of str.strip() (bot.py line 86): remove leading and trailing
whitespace. -/
def pyStrip (l : List Char) : List Char :=
  ((l.dropWhile isSpace).reverse.dropWhile isSpace).reverse

/-- Model of html.escape (bot.py line 87), which replaces the five
characters &, <, >, double quote and single quote by entities. -/
def escapeChar (c : Char) : List Char :=
  if c = '&' then "&amp;".data
  else if c = '<' then "&lt;".data
  else if c = '>' then "&gt;".data
  else if c = '"' then "&quot;".data
  else if c = '\'' then "&#x27;".data
  else [c]

/-- html.escape over a whole string. -/
def escapeL (l : List Char) : List Char := (l.map escapeChar).flatten

/-- The sanitizer safe(text) of bot.py lines 81-87 on character lists:
empty input yields empty output; otherwise unescape entities, strip markup
tags, collapse whitespace runs to single spaces, trim, then re-escape. -/
def safeL (l : List Char) : List Char :=
  if l = [] then []
  else escapeL (pyStrip (collapseWs (stripTags (unescapeL l))))

/-- The sanitizer on strings. -/
def safeS (s : String) : String := String.mk (safeL s.data)


/- ------------------------------------------------------------------ -/
/- Sanitizer lemmas: unescape inverts escape                           -/
/- ------------------------------------------------------------------ -/

theorem matchEntity_amp (w : List Char) :
    matchEntity ('a' :: 'm' :: 'p' :: ';' :: w) = some ('&', 4) := rfl

theorem matchEntity_lt (w : List Char) :
    matchEntity ('l' :: 't' :: ';' :: w) = some ('<', 3) := rfl

theorem matchEntity_gt (w : List Char) :
    matchEntity ('g' :: 't' :: ';' :: w) = some ('>', 3) := rfl

theorem matchEntity_quot (w : List Char) :
    matchEntity ('q' :: 'u' :: 'o' :: 't' :: ';' :: w) = some ('"', 5) := rfl

theorem matchEntity_apos (w : List Char) :
    matchEntity ('#' :: 'x' :: '2' :: '7' :: ';' :: w) = some ('\'', 5) := rfl

theorem unescapeL_nil : unescapeL [] = [] := by
  rw [unescapeL.eq_def]

theorem unescapeL_cons_ne (c : Char) (w : List Char) (hc : c ≠ '&') :
    unescapeL (c :: w) = c :: unescapeL w := by
  rw [unescapeL.eq_def]
  dsimp only
  rw [if_neg hc]

theorem unescape_escapeChar (c : Char) (w : List Char) :
    unescapeL (escapeChar c ++ w) = c :: unescapeL w := by
  by_cases h1 : c = '&'
  · subst h1
    rw [show escapeChar '&' ++ w = '&' :: 'a' :: 'm' :: 'p' :: ';' :: w
      from rfl]
    rw [unescapeL.eq_def]
    dsimp only
    rw [if_pos rfl, matchEntity_amp]
    dsimp only
    rw [show List.drop 4 ('a' :: 'm' :: 'p' :: ';' :: w) = w from rfl]
  by_cases h2 : c = '<'
  · subst h2
    rw [show escapeChar '<' ++ w = '&' :: 'l' :: 't' :: ';' :: w from rfl]
    rw [unescapeL.eq_def]
    dsimp only
    rw [if_pos rfl, matchEntity_lt]
    dsimp only
    rw [show List.drop 3 ('l' :: 't' :: ';' :: w) = w from rfl]
  by_cases h3 : c = '>'
  · subst h3
    rw [show escapeChar '>' ++ w = '&' :: 'g' :: 't' :: ';' :: w from rfl]
    rw [unescapeL.eq_def]
    dsimp only
    rw [if_pos rfl, matchEntity_gt]
    dsimp only
    rw [show List.drop 3 ('g' :: 't' :: ';' :: w) = w from rfl]
  by_cases h4 : c = '"'
  · subst h4
    rw [show escapeChar '"' ++ w = '&' :: 'q' :: 'u' :: 'o' :: 't' :: ';' :: w
      from rfl]
    rw [unescapeL.eq_def]
    dsimp only
    rw [if_pos rfl, matchEntity_quot]
    dsimp only
    rw [show List.drop 5 ('q' :: 'u' :: 'o' :: 't' :: ';' :: w) = w from rfl]
  by_cases h5 : c = '\''
  · subst h5
    rw [show escapeChar '\'' ++ w =
      '&' :: '#' :: 'x' :: '2' :: '7' :: ';' :: w from rfl]
    rw [unescapeL.eq_def]
    dsimp only
    rw [if_pos rfl, matchEntity_apos]
    dsimp only
    rw [show List.drop 5 ('#' :: 'x' :: '2' :: '7' :: ';' :: w) = w from rfl]
  · have he : escapeChar c = [c] := by
      simp [escapeChar, h1, h2, h3, h4, h5]
    rw [he]
    exact unescapeL_cons_ne c w h1

theorem unescape_escape (z : List Char) : unescapeL (escapeL z) = z := by
  induction z with
  | nil => exact unescapeL_nil
  | cons c z ih =>
    show unescapeL (((c :: z).map escapeChar).flatten) = c :: z
    rw [List.map_cons, List.flatten_cons]
    rw [unescape_escapeChar]
    exact congrArg (c :: ·) ih

/- ------------------------------------------------------------------ -/
/- Sanitizer lemmas: a stripped text has no remaining tags             -/
/- ------------------------------------------------------------------ -/

/-- No greater-than sign anywhere. -/
def gtFree (l : List Char) : Bool := l.all (fun c => c != '>')

/-- Every less-than sign is followed by text on which no tag match can
start (immediately closed or with no closing sign at all), so stripTags
leaves the list unchanged. -/
def noTags : List Char → Bool
  | [] => true
  | c :: rest => (if c = '<' then (tagEnd rest).isNone else true) && noTags rest

theorem gtIndex_none_of_gtFree :
    ∀ l : List Char, gtFree l = true → gtIndex l = none := by
  intro l
  induction l with
  | nil => intro _; rfl
  | cons c rest ih =>
    intro h
    simp only [gtFree, List.all_cons, Bool.and_eq_true] at h
    obtain ⟨hc, hrest⟩ := h
    simp only [gtIndex, if_neg (by simpa using hc)]
    rw [ih hrest]
    rfl

theorem gtFree_of_gtIndex_none :
    ∀ l : List Char, gtIndex l = none → gtFree l = true := by
  intro l
  induction l with
  | nil => intro _; rfl
  | cons c rest ih =>
    intro h
    simp only [gtIndex] at h
    by_cases hc : c = '>'
    · rw [if_pos hc] at h; exact absurd h (by simp)
    · rw [if_neg hc] at h
      have := Option.map_eq_none'.mp h
      simp only [gtFree, List.all_cons, Bool.and_eq_true]
      exact ⟨by simpa using hc, ih this⟩

theorem tagEnd_none_of_gtFree (l : List Char) (h : gtFree l = true) :
    tagEnd l = none := by
  cases l with
  | nil => rfl
  | cons c rest =>
    simp only [gtFree, List.all_cons, Bool.and_eq_true] at h
    obtain ⟨_, hrest⟩ := h
    simp only [tagEnd]
    split
    · rfl
    · rw [gtIndex_none_of_gtFree rest hrest]
      rfl

theorem gtIndex_append_none :
    ∀ (a b : List Char), gtIndex (a ++ b) = none → gtIndex a = none := by
  intro a b
  induction a with
  | nil => intro _; rfl
  | cons c rest ih =>
    intro h
    simp only [List.cons_append, gtIndex] at h ⊢
    by_cases hc : c = '>'
    · rw [if_pos hc] at h; exact absurd h (by simp)
    · rw [if_neg hc] at h ⊢
      rw [ih (Option.map_eq_none'.mp h)]
      rfl

theorem tagEnd_append_none (a b : List Char) (h : tagEnd (a ++ b) = none) :
    tagEnd a = none := by
  cases a with
  | nil => rfl
  | cons c rest =>
    simp only [List.cons_append, tagEnd] at h ⊢
    by_cases hc : c = '>'
    · rw [if_pos hc]
    · rw [if_neg hc] at h ⊢
      rw [gtIndex_append_none rest b (Option.map_eq_none'.mp h)]
      rfl

theorem stripTags_nil : stripTags [] = [] := by
  rw [stripTags.eq_def]

theorem stripTags_cons_ne (c : Char) (rest : List Char) (hc : c ≠ '<') :
    stripTags (c :: rest) = c :: stripTags rest := by
  rw [stripTags.eq_def]
  dsimp only
  rw [if_neg hc]

theorem stripTags_cons_lt_none (rest : List Char) (h : tagEnd rest = none) :
    stripTags ('<' :: rest) = '<' :: stripTags rest := by
  rw [stripTags.eq_def]
  dsimp only
  rw [if_pos rfl, h]

theorem stripTags_cons_lt_some (rest : List Char) (k : Nat)
    (h : tagEnd rest = some k) :
    stripTags ('<' :: rest) = stripTags (rest.drop k) := by
  rw [stripTags.eq_def]
  dsimp only
  rw [if_pos rfl, h]

theorem stripTags_gtFree_id :
    ∀ l : List Char, gtFree l = true → stripTags l = l := by
  intro l
  induction l with
  | nil => intro _; exact stripTags_nil
  | cons c rest ih =>
    intro h
    have hrest : gtFree rest = true := by
      simp only [gtFree, List.all_cons, Bool.and_eq_true] at h
      exact h.2
    by_cases hc : c = '<'
    · subst hc
      rw [stripTags_cons_lt_none rest (tagEnd_none_of_gtFree rest hrest)]
      rw [ih hrest]
    · rw [stripTags_cons_ne c rest hc, ih hrest]

theorem tagEnd_cases (l : List Char) (h : tagEnd l = none) :
    l = [] ∨ (∃ r, l = '>' :: r) ∨ gtFree l = true := by
  cases l with
  | nil => exact Or.inl rfl
  | cons c rest =>
    by_cases hc : c = '>'
    · subst hc; exact Or.inr (Or.inl ⟨rest, rfl⟩)
    · refine Or.inr (Or.inr ?_)
      simp only [tagEnd, if_neg hc] at h
      have := gtFree_of_gtIndex_none rest (Option.map_eq_none'.mp h)
      simp only [gtFree, List.all_cons, Bool.and_eq_true]
      exact ⟨by simpa using hc, this⟩

theorem stripTags_of_noTags :
    ∀ l : List Char, noTags l = true → stripTags l = l := by
  intro l
  induction l with
  | nil => intro _; exact stripTags_nil
  | cons c rest ih =>
    intro h
    simp only [noTags, Bool.and_eq_true] at h
    obtain ⟨hcond, hrest⟩ := h
    by_cases hc : c = '<'
    · subst hc
      rw [if_pos rfl] at hcond
      rw [stripTags_cons_lt_none rest (Option.isNone_iff_eq_none.mp hcond)]
      rw [ih hrest]
    · rw [stripTags_cons_ne c rest hc, ih hrest]

theorem noTags_of_gtFree :
    ∀ l : List Char, gtFree l = true → noTags l = true := by
  intro l
  induction l with
  | nil => intro _; rfl
  | cons c rest ih =>
    intro h
    have hrest : gtFree rest = true := by
      simp only [gtFree, List.all_cons, Bool.and_eq_true] at h
      exact h.2
    simp only [noTags, Bool.and_eq_true]
    refine ⟨?_, ih hrest⟩
    split
    · rw [tagEnd_none_of_gtFree rest hrest]; rfl
    · rfl

theorem noTags_stripTags_aux :
    ∀ (n : Nat) (l : List Char), l.length ≤ n →
      noTags (stripTags l) = true := by
  intro n
  induction n with
  | zero =>
    intro l hl
    have : l = [] := List.eq_nil_of_length_eq_zero (by omega)
    subst this
    rw [stripTags_nil]
    rfl
  | succ n ih =>
    intro l hl
    cases l with
    | nil => rw [stripTags_nil]; rfl
    | cons c rest =>
      simp only [List.length_cons] at hl
      by_cases hc : c = '<'
      · subst hc
        cases ht : tagEnd rest with
        | some k =>
          rw [stripTags_cons_lt_some rest k ht]
          exact ih (rest.drop k) (by simp only [List.length_drop]; omega)
        | none =>
          rw [stripTags_cons_lt_none rest ht]
          have h2 := ih rest (by omega)
          have h1 : tagEnd (stripTags rest) = none := by
            rcases tagEnd_cases rest ht with hnil | ⟨r, hr⟩ | hfree
            · subst hnil; rw [stripTags_nil]; rfl
            · subst hr
              rw [stripTags_cons_ne '>' r (by decide)]
              rfl
            · rw [stripTags_gtFree_id rest hfree]; exact ht
          simp only [noTags, if_pos rfl, Bool.and_eq_true, h1]
          exact ⟨rfl, h2⟩
      · rw [stripTags_cons_ne c rest hc]
        simp only [noTags, if_neg hc, Bool.true_and]
        exact ih rest (by omega)

theorem noTags_stripTags (l : List Char) : noTags (stripTags l) = true :=
  noTags_stripTags_aux l.length l le_rfl

theorem noTags_tail (c : Char) (rest : List Char)
    (h : noTags (c :: rest) = true) : noTags rest = true := by
  simp only [noTags, Bool.and_eq_true] at h
  exact h.2

theorem noTags_append_left :
    ∀ (a b : List Char), noTags (a ++ b) = true → noTags a = true := by
  intro a b
  induction a with
  | nil => intro _; rfl
  | cons c rest ih =>
    intro h
    simp only [List.cons_append, noTags, Bool.and_eq_true] at h ⊢
    obtain ⟨hcond, hrest⟩ := h
    refine ⟨?_, ih hrest⟩
    split
    · next hc =>
      rw [if_pos hc] at hcond
      rw [tagEnd_append_none rest b (Option.isNone_iff_eq_none.mp hcond)]
      rfl
    · rfl

theorem noTags_dropWhile (p : Char → Bool) :
    ∀ l : List Char, noTags l = true → noTags (l.dropWhile p) = true := by
  intro l
  induction l with
  | nil => intro _; rfl
  | cons c rest ih =>
    intro h
    rw [List.dropWhile_cons]
    split
    · exact ih (noTags_tail c rest h)
    · exact h

/- ------------------------------------------------------------------ -/
/- Sanitizer lemmas: collapsed whitespace and trimming                 -/
/- ------------------------------------------------------------------ -/

/-- All whitespace is a single plain space never followed by more
whitespace, i.e. collapseWs leaves the list unchanged. -/
def collapsedWs : List Char → Bool
  | [] => true
  | [c] => !isSpace c || c == ' '
  | c :: d :: rest =>
    (!isSpace c || (c == ' ' && !isSpace d)) && collapsedWs (d :: rest)

/-- The first character, if any, is not whitespace. -/
def noLeadWs : List Char → Bool
  | [] => true
  | c :: _ => !isSpace c

theorem collapseWs_nil : collapseWs [] = [] := by
  rw [collapseWs.eq_def]

theorem collapseWs_cons_space (c : Char) (rest : List Char)
    (h : isSpace c = true) :
    collapseWs (c :: rest) = ' ' :: collapseWs (rest.dropWhile isSpace) := by
  rw [collapseWs.eq_def]
  dsimp only
  rw [if_pos h]

theorem collapseWs_cons_nonspace (c : Char) (rest : List Char)
    (h : isSpace c = false) :
    collapseWs (c :: rest) = c :: collapseWs rest := by
  rw [collapseWs.eq_def]
  dsimp only
  rw [if_neg (by simp [h])]

theorem dropWhile_head_false (p : Char → Bool) :
    ∀ (l x : List Char) (c : Char), l.dropWhile p = c :: x → p c = false := by
  intro l
  induction l with
  | nil => intro x c h; simp [List.dropWhile] at h
  | cons a rest ih =>
    intro x c h
    rw [List.dropWhile_cons] at h
    split at h
    · exact ih x c h
    · next ha =>
      injection h with h1 _
      subst h1
      simpa using ha

theorem gtFree_dropWhile (p : Char → Bool) (l : List Char)
    (h : gtFree l = true) : gtFree (l.dropWhile p) = true := by
  simp only [gtFree, List.all_eq_true] at h ⊢
  intro x hx
  exact h x (List.dropWhile_subset p hx)

theorem collapseWs_length_le_aux :
    ∀ (n : Nat) (l : List Char), l.length ≤ n →
      (collapseWs l).length ≤ l.length := by
  intro n
  induction n with
  | zero =>
    intro l hl
    have : l = [] := List.eq_nil_of_length_eq_zero (by omega)
    subst this
    rw [collapseWs_nil]
  | succ n ih =>
    intro l hl
    cases l with
    | nil => rw [collapseWs_nil]
    | cons c rest =>
      simp only [List.length_cons] at hl
      have hd := List.Sublist.length_le
        (List.dropWhile_sublist (l := rest) isSpace)
      cases hsp : isSpace c with
      | true =>
        rw [collapseWs_cons_space c rest hsp]
        simp only [List.length_cons]
        have := ih (rest.dropWhile isSpace) (by omega)
        omega
      | false =>
        rw [collapseWs_cons_nonspace c rest hsp]
        simp only [List.length_cons]
        have := ih rest (by omega)
        omega

theorem gtFree_collapseWs_aux :
    ∀ (n : Nat) (l : List Char), l.length ≤ n → gtFree l = true →
      gtFree (collapseWs l) = true := by
  intro n
  induction n with
  | zero =>
    intro l hl _
    have : l = [] := List.eq_nil_of_length_eq_zero (by omega)
    subst this
    rw [collapseWs_nil]
    rfl
  | succ n ih =>
    intro l hl h
    cases l with
    | nil => rw [collapseWs_nil]; rfl
    | cons c rest =>
      simp only [List.length_cons] at hl
      have hrest : gtFree rest = true := by
        simp only [gtFree, List.all_cons, Bool.and_eq_true] at h
        exact h.2
      have hd := List.Sublist.length_le
        (List.dropWhile_sublist (l := rest) isSpace)
      cases hsp : isSpace c with
      | true =>
        rw [collapseWs_cons_space c rest hsp]
        simp only [gtFree, List.all_cons, Bool.and_eq_true]
        refine ⟨by decide, ?_⟩
        exact ih (rest.dropWhile isSpace) (by omega)
          (gtFree_dropWhile isSpace rest hrest)
      | false =>
        rw [collapseWs_cons_nonspace c rest hsp]
        simp only [gtFree, List.all_cons, Bool.and_eq_true] at h ⊢
        exact ⟨h.1, ih rest (by omega) hrest⟩

theorem gtFree_collapseWs (l : List Char) (h : gtFree l = true) :
    gtFree (collapseWs l) = true :=
  gtFree_collapseWs_aux l.length l le_rfl h

theorem noTags_collapseWs_aux :
    ∀ (n : Nat) (l : List Char), l.length ≤ n → noTags l = true →
      noTags (collapseWs l) = true := by
  intro n
  induction n with
  | zero =>
    intro l hl _
    have : l = [] := List.eq_nil_of_length_eq_zero (by omega)
    subst this
    rw [collapseWs_nil]
    rfl
  | succ n ih =>
    intro l hl h
    cases l with
    | nil => rw [collapseWs_nil]; rfl
    | cons c rest =>
      simp only [List.length_cons] at hl
      have hrest : noTags rest = true := noTags_tail c rest h
      have hd := List.Sublist.length_le
        (List.dropWhile_sublist (l := rest) isSpace)
      cases hsp : isSpace c with
      | true =>
        rw [collapseWs_cons_space c rest hsp]
        simp only [noTags, Bool.and_eq_true]
        refine ⟨?_, ?_⟩
        · rw [if_neg (by decide : ¬(' ' = '<'))]
        · exact ih (rest.dropWhile isSpace) (by omega)
            (noTags_dropWhile isSpace rest hrest)
      | false =>
        by_cases hc : c = '<'
        · subst hc
          simp only [noTags, if_pos rfl, Bool.and_eq_true] at h
          have hte : tagEnd rest = none :=
            Option.isNone_iff_eq_none.mp h.1
          rw [collapseWs_cons_nonspace '<' rest hsp]
          simp only [noTags, if_pos rfl, Bool.and_eq_true]
          constructor
          · have h1 : tagEnd (collapseWs rest) = none := by
              rcases tagEnd_cases rest hte with hnil | ⟨r, hr⟩ | hfree
              · subst hnil; rw [collapseWs_nil]; rfl
              · subst hr
                rw [collapseWs_cons_nonspace '>' r (by decide)]
                rfl
              · exact tagEnd_none_of_gtFree _ (gtFree_collapseWs rest hfree)
            rw [h1]; rfl
          · exact ih rest (by omega) hrest
        · rw [collapseWs_cons_nonspace c rest hsp]
          simp only [noTags, if_neg hc, Bool.true_and]
          exact ih rest (by omega) hrest

theorem noTags_collapseWs (l : List Char) (h : noTags l = true) :
    noTags (collapseWs l) = true :=
  noTags_collapseWs_aux l.length l le_rfl h

theorem collapsedWs_tail (c : Char) (rest : List Char)
    (h : collapsedWs (c :: rest) = true) : collapsedWs rest = true := by
  cases rest with
  | nil => rfl
  | cons d t =>
    simp only [collapsedWs, Bool.and_eq_true] at h
    exact h.2

theorem collapsedWs_dropWhile (p : Char → Bool) :
    ∀ l : List Char, collapsedWs l = true →
      collapsedWs (l.dropWhile p) = true := by
  intro l
  induction l with
  | nil => intro _; rfl
  | cons c rest ih =>
    intro h
    rw [List.dropWhile_cons]
    split
    · exact ih (collapsedWs_tail c rest h)
    · exact h

theorem collapsedWs_append_left :
    ∀ (a b : List Char), collapsedWs (a ++ b) = true →
      collapsedWs a = true := by
  intro a b
  induction a with
  | nil => intro _; rfl
  | cons c r ih =>
    intro h
    cases r with
    | nil =>
      cases b with
      | nil => simpa using h
      | cons d t =>
        simp only [List.cons_append, List.nil_append, collapsedWs,
          Bool.and_eq_true, Bool.or_eq_true, Bool.and_eq_true] at h ⊢
        rcases h.1 with hns | ⟨hsp, _⟩
        · exact Or.inl hns
        · exact Or.inr hsp
    | cons d t =>
      simp only [List.cons_append, collapsedWs, Bool.and_eq_true] at h ⊢
      refine ⟨h.1, ih ?_⟩
      simpa using h.2

theorem collapseWs_nonnil (c : Char) (rest : List Char) :
    collapseWs (c :: rest) ≠ [] := by
  cases hsp : isSpace c with
  | true => rw [collapseWs_cons_space c rest hsp]; simp
  | false => rw [collapseWs_cons_nonspace c rest hsp]; simp

theorem collapsedWs_collapseWs_aux :
    ∀ (n : Nat) (l : List Char), l.length ≤ n →
      collapsedWs (collapseWs l) = true := by
  intro n
  induction n with
  | zero =>
    intro l hl
    have : l = [] := List.eq_nil_of_length_eq_zero (by omega)
    subst this
    rw [collapseWs_nil]
    rfl
  | succ n ih =>
    intro l hl
    cases l with
    | nil => rw [collapseWs_nil]; rfl
    | cons c rest =>
      simp only [List.length_cons] at hl
      have hd := List.Sublist.length_le
        (List.dropWhile_sublist (l := rest) isSpace)
      cases hsp : isSpace c with
      | true =>
        rw [collapseWs_cons_space c rest hsp]
        cases hX : collapseWs (rest.dropWhile isSpace) with
        | nil => decide
        | cons d t =>
          have hcoll : collapsedWs (d :: t) = true := by
            rw [← hX]
            exact ih (rest.dropWhile isSpace) (by omega)
          have hdns : isSpace d = false := by
            cases hD : rest.dropWhile isSpace with
            | nil => rw [hD, collapseWs_nil] at hX; exact absurd hX (by simp)
            | cons x t2 =>
              have hx : isSpace x = false := dropWhile_head_false isSpace rest t2 x hD
              rw [hD, collapseWs_cons_nonspace x t2 hx] at hX
              injection hX with h1 _
              subst h1
              exact hx
          simp only [collapsedWs, Bool.and_eq_true, Bool.or_eq_true,
            Bool.and_eq_true]
          exact ⟨Or.inr ⟨by decide, by simp [hdns]⟩, hcoll⟩
      | false =>
        rw [collapseWs_cons_nonspace c rest hsp]
        cases hY : collapseWs rest with
        | nil => simp [collapsedWs, hsp]
        | cons d t =>
          have hcoll : collapsedWs (d :: t) = true := by
            rw [← hY]
            exact ih rest (by omega)
          simp only [collapsedWs, Bool.and_eq_true, Bool.or_eq_true]
          exact ⟨Or.inl (by simp [hsp]), hcoll⟩

theorem collapsedWs_collapseWs (l : List Char) :
    collapsedWs (collapseWs l) = true :=
  collapsedWs_collapseWs_aux l.length l le_rfl

theorem collapsedWs_id :
    ∀ l : List Char, collapsedWs l = true → collapseWs l = l := by
  intro l
  induction l with
  | nil => intro _; exact collapseWs_nil
  | cons c rest ih =>
    intro h
    cases hsp : isSpace c with
    | false =>
      rw [collapseWs_cons_nonspace c rest hsp]
      rw [ih (collapsedWs_tail c rest h)]
    | true =>
      cases rest with
      | nil =>
        simp only [collapsedWs, Bool.or_eq_true] at h
        have hc : c = ' ' := by
          rcases h with hns | hsp2
          · rw [hsp] at hns; exact absurd hns (by simp)
          · exact eq_of_beq hsp2
        subst hc
        rw [collapseWs_cons_space ' ' [] hsp]
        rw [show List.dropWhile isSpace [] = [] from rfl, collapseWs_nil]
      | cons d t =>
        simp only [collapsedWs, Bool.and_eq_true, Bool.or_eq_true,
          Bool.and_eq_true] at h
        obtain ⟨hhead, htail⟩ := h
        rcases hhead with hns | ⟨hc, hdns⟩
        · rw [hsp] at hns; exact absurd hns (by simp)
        · have hc2 : c = ' ' := eq_of_beq hc
          have hdns2 : isSpace d = false := by simpa using hdns
          subst hc2
          rw [collapseWs_cons_space ' ' (d :: t) hsp]
          rw [List.dropWhile_cons_of_neg (by simp [hdns2])]
          rw [ih htail]

/- ------------------------------------------------------------------ -/
/- Sanitizer lemmas: trimming                                          -/
/- ------------------------------------------------------------------ -/

theorem dropWhile_noLead (l : List Char) :
    noLeadWs (l.dropWhile isSpace) = true := by
  cases hD : l.dropWhile isSpace with
  | nil => rfl
  | cons c t =>
    have := dropWhile_head_false isSpace l t c hD
    simp [noLeadWs, this]

theorem pyStrip_decomp (l : List Char) :
    ∃ s, l.dropWhile isSpace = pyStrip l ++ s := by
  refine ⟨((l.dropWhile isSpace).reverse.takeWhile isSpace).reverse, ?_⟩
  have h := List.takeWhile_append_dropWhile
    (p := isSpace) (l := (l.dropWhile isSpace).reverse)
  calc l.dropWhile isSpace
      = (l.dropWhile isSpace).reverse.reverse := (List.reverse_reverse _).symm
    _ = ((l.dropWhile isSpace).reverse.takeWhile isSpace ++
          (l.dropWhile isSpace).reverse.dropWhile isSpace).reverse := by
        rw [h]
    _ = ((l.dropWhile isSpace).reverse.dropWhile isSpace).reverse ++
          ((l.dropWhile isSpace).reverse.takeWhile isSpace).reverse := by
        rw [List.reverse_append]
    _ = pyStrip l ++
          ((l.dropWhile isSpace).reverse.takeWhile isSpace).reverse := rfl

theorem noTags_pyStrip (l : List Char) (h : noTags l = true) :
    noTags (pyStrip l) = true := by
  obtain ⟨s, hs⟩ := pyStrip_decomp l
  have hT : noTags (l.dropWhile isSpace) = true := noTags_dropWhile isSpace l h
  rw [hs] at hT
  exact noTags_append_left _ s hT

theorem collapsedWs_pyStrip (l : List Char) (h : collapsedWs l = true) :
    collapsedWs (pyStrip l) = true := by
  obtain ⟨s, hs⟩ := pyStrip_decomp l
  have hT : collapsedWs (l.dropWhile isSpace) = true :=
    collapsedWs_dropWhile isSpace l h
  rw [hs] at hT
  exact collapsedWs_append_left _ s hT

theorem noLeadWs_append_left (a b : List Char)
    (h : noLeadWs (a ++ b) = true) : noLeadWs a = true := by
  cases a with
  | nil => rfl
  | cons c t => simpa [noLeadWs] using h

theorem noLeadWs_pyStrip (l : List Char) : noLeadWs (pyStrip l) = true := by
  obtain ⟨s, hs⟩ := pyStrip_decomp l
  have := dropWhile_noLead l
  rw [hs] at this
  exact noLeadWs_append_left _ s this

theorem noLeadWs_pyStrip_reverse (l : List Char) :
    noLeadWs (pyStrip l).reverse = true := by
  have : (pyStrip l).reverse =
      (l.dropWhile isSpace).reverse.dropWhile isSpace := by
    simp [pyStrip]
  rw [this]
  exact dropWhile_noLead _

theorem dropWhile_of_noLead (l : List Char) (h : noLeadWs l = true) :
    l.dropWhile isSpace = l := by
  cases l with
  | nil => rfl
  | cons c t =>
    simp only [noLeadWs, Bool.not_eq_true'] at h
    exact List.dropWhile_cons_of_neg (by simp [h])

theorem pyStrip_id (l : List Char) (h1 : noLeadWs l = true)
    (h2 : noLeadWs l.reverse = true) : pyStrip l = l := by
  show ((l.dropWhile isSpace).reverse.dropWhile isSpace).reverse = l
  rw [dropWhile_of_noLead l h1, dropWhile_of_noLead l.reverse h2,
    List.reverse_reverse]

theorem pyStrip_pyStrip (l : List Char) : pyStrip (pyStrip l) = pyStrip l :=
  pyStrip_id (pyStrip l) (noLeadWs_pyStrip l) (noLeadWs_pyStrip_reverse l)

/- ------------------------------------------------------------------ -/
/- Claim C8                                                            -/
/- ------------------------------------------------------------------ -/

theorem safeL_nil : safeL [] = [] := by
  simp [safeL]

theorem safeL_idem (l : List Char) : safeL (safeL l) = safeL l := by
  by_cases hl : l = []
  · subst hl
    rw [safeL_nil]
    exact safeL_nil
  · by_cases hY : safeL l = []
    · rw [hY]
      exact safeL_nil
    · have hdef : safeL l =
          escapeL (pyStrip (collapseWs (stripTags (unescapeL l)))) := by
        simp only [safeL, if_neg hl]
      rw [hdef] at hY ⊢
      simp only [safeL, if_neg hY]
      rw [unescape_escape]
      rw [stripTags_of_noTags _
        (noTags_pyStrip _ (noTags_collapseWs _ (noTags_stripTags _)))]
      rw [collapsedWs_id _ (collapsedWs_pyStrip _ (collapsedWs_collapseWs _))]
      rw [pyStrip_pyStrip]

/-- C8.  Sanitizer idempotence: for every input string,
safe(safe(x)) = safe(x), where safe decodes HTML entities, strips markup
tags, collapses whitespace runs to single spaces, trims, and re-escapes
ampersand and the angle brackets (plus both quote characters, as
html.escape does). -/
theorem C8_sanitizer_idempotent (s : String) : safeS (safeS s) = safeS s := by
  show String.mk (safeL (String.mk (safeL s.data)).data) =
    String.mk (safeL s.data)
  rw [show (String.mk (safeL s.data)).data = safeL s.data from rfl]
  rw [safeL_idem]

/- ------------------------------------------------------------------ -/
/- Poller main-loop step (bot.py lines 146-182)                        -/
/- ------------------------------------------------------------------ -/

/-- State of the poller as far as one item's processing touches it: the
seen set and the outbound queue. -/
structure BotState where
  seen : List (String × Nat)
  queue : List String
deriving DecidableEq

/-- Snippet construction of bot.py line 170:
summary[:300] + ("..." if len(summary) > 300 else ""). -/
def snippetOf (summary : String) : String :=
  String.mk (summary.data.take 300) ++
    (if 300 < summary.data.length then "..." else "")

/-- The text slice a regex match object reports as group(1): the matched
keyword as it occurs in the text (original casing). -/
def group1 (text : List Char) (p : Nat) (kw : String) : String :=
  String.mk ((text.drop p).take kw.data.length)

/-- The notification message of bot.py lines 172-178. -/
def buildMsg (kw sub title snippet link : String) : String :=
  "🔔 <b>Keyword:</b> " ++ kw ++ "\n<b>Subreddit:</b> r/" ++ sub ++
    "\n<b>Title:</b> " ++ title ++ "\n<b>Snippet:</b> " ++ snippet ++
    "\n<b>Link:</b> " ++ link

/-- Processing of one feed entry by the main loop (bot.py lines 158-182):
skip if the fingerprint is in the seen set; otherwise sanitize title and
summary, search the combined text for a keyword; on no match skip without
recording; on a match enqueue the formatted message, record the
fingerprint with the current timestamp and prune the seen set. -/
def processEntry (sub : String) (now : Nat) (st : BotState)
    (e : FeedEntry) : BotState :=
  let pid := post_id e
  if st.seen.any (fun p => p.1 == pid) then st
  else
    let title := safeS e.title
    let summary := safeS e.summary
    let text := title ++ " " ++ summary
    match search text.data with
    | none => st
    | some (p, kw) =>
      let snippet := snippetOf summary
      let msg := buildMsg (safeS (group1 text.data p kw)) (safeS sub) title
        snippet e.link
      { seen := prune_seen (st.seen ++ [(pid, now)]),
        queue := st.queue ++ [msg] }

/- ------------------------------------------------------------------ -/
/- Scheduler / heartbeat (bot.py lines 66, 140-151)                    -/
/- ------------------------------------------------------------------ -/

/-- The startup notice enqueued on bot.py line 141 before the main loop. -/
def startupMsg : String := "🚀 Reddit crypto monitoring bot started"

/-- The heartbeat message of bot.py line 150. -/
def heartbeatMsg : String := "🟢 Bot heartbeat: still running"

/-- The heartbeat check at the top of each main-loop iteration
(bot.py lines 147-151): if now - last_heartbeat > HEARTBEAT_INTERVAL,
enqueue the heartbeat message and reset the timer; returns the queue and
the heartbeat timer after the check. -/
def heartbeatStep (now last_heartbeat : Nat) (queue : List String) :
    List String × Nat :=
  if HEARTBEAT_INTERVAL < now - last_heartbeat then
    (queue ++ [heartbeatMsg], now)
  else (queue, last_heartbeat)

/- ------------------------------------------------------------------ -/
/- Claim C9                                                            -/
/- ------------------------------------------------------------------ -/

/-- C9.  Non-matching items leave the state unchanged: when the keyword
search over the sanitized title-plus-summary text finds nothing, processing
the item records no fingerprint — the seen set (indeed the whole state) is
unchanged, whichever branch (already-seen or no-match skip) is taken; only
matched unseen items ever reach the recording statement. -/
theorem C9_no_match_frame (sub : String) (now : Nat) (st : BotState)
    (e : FeedEntry)
    (h : search (safeS e.title ++ " " ++ safeS e.summary).data = none) :
    processEntry sub now st e = st := by
  by_cases hseen : st.seen.any (fun p => p.1 == post_id e) = true
  · simp only [processEntry, hseen, if_true]
  · simp only [processEntry, Bool.not_eq_true] at hseen ⊢
    rw [hseen]
    simp only [Bool.false_eq_true, if_false, h]

theorem unescapeL_no_amp :
    ∀ l : List Char, l.all (fun c => c != '&') = true → unescapeL l = l := by
  intro l
  induction l with
  | nil => intro _; exact unescapeL_nil
  | cons c rest ih =>
    intro h
    simp only [List.all_cons, Bool.and_eq_true] at h
    rw [unescapeL_cons_ne c rest (by simpa using h.1)]
    rw [ih h.2]

theorem safeS_hello : safeS "hello" = "hello" := by
  show String.mk (safeL "hello".data) = "hello"
  have hne : "hello".data ≠ [] := by decide
  simp only [safeL, if_neg hne]
  rw [unescapeL_no_amp _ (by decide)]
  rw [stripTags_gtFree_id _ (by decide)]
  rw [collapsedWs_id _ (by decide)]
  rw [show pyStrip "hello".data = "hello".data from rfl]
  rfl

theorem safeS_empty : safeS "" = "" := by
  show String.mk (safeL "".data) = ""
  rw [show "".data = ([] : List Char) from rfl, safeL_nil]

theorem C9_no_match_frame_witness :
    processEntry "Bitcoin" 5 ⟨[("x", 1)], ["q"]⟩
      (FeedEntry.mk "i1" "l1" "hello" "") = ⟨[("x", 1)], ["q"]⟩ := by
  refine C9_no_match_frame "Bitcoin" 5 ⟨[("x", 1)], ["q"]⟩
    (FeedEntry.mk "i1" "l1" "hello" "") ?_
  rw [show (FeedEntry.mk "i1" "l1" "hello" "").title = "hello" from rfl,
    show (FeedEntry.mk "i1" "l1" "hello" "").summary = "" from rfl,
    safeS_hello, safeS_empty]
  decide

/- ------------------------------------------------------------------ -/
/- Claim C10                                                           -/
/- ------------------------------------------------------------------ -/

/-- C10.  First-iteration heartbeat: last_heartbeat is initialized to 0
(bot.py line 66), so on the first main-loop iteration the check
now - last_heartbeat > 1800 compares against the full wall-clock timestamp;
for any process start time beyond 1800 seconds after the epoch (every
realistic clock) it passes regardless of how little time elapsed since
startup, and the heartbeat message is enqueued right behind the startup
notice. -/
theorem C10_first_iteration_heartbeat (startTime elapsed : Nat)
    (h : 1800 < startTime) :
    heartbeatStep (startTime + elapsed) 0 [startupMsg] =
      ([startupMsg, heartbeatMsg], startTime + elapsed) := by
  simp only [heartbeatStep, HEARTBEAT_INTERVAL, Nat.sub_zero]
  rw [if_pos (by omega)]
  rfl

theorem C10_first_iteration_heartbeat_witness :
    heartbeatStep (1700000000 + 0) 0 [startupMsg] =
      ([startupMsg, heartbeatMsg], 1700000000 + 0) :=
  C10_first_iteration_heartbeat 1700000000 0 (by norm_num)
